import Mathlib

/-!
Shallow embedding of `src/index_deps.py`.

Strings are modelled as `List Char` (`Str`); the Python operations used by
the script (`str.lower`, `str.strip`, `str.split(...)[0]`, `str.startswith`,
`str.endswith`, `"/" in s`) are embedded as executable functions over `Str`.
Case folding is modelled with `Char.toLower`, matching Python on the ASCII
names the script works with.
-/

namespace IndexDeps

abbrev Str := List Char

/-- Python whitespace for `str.strip()` (ASCII subset). -/
def isWS (c : Char) : Bool :=
  c = ' ' || c = '\t' || c = '\n' || c = '\r' || c = '\x0b' || c = '\x0c'

/-- `s.strip()`. -/
def stripStr (s : Str) : Str :=
  ((s.dropWhile isWS).reverse.dropWhile isWS).reverse

/-- `s.lower()` (ASCII). -/
def lowerStr (s : Str) : Str := s.map Char.toLower

/-- `s.endswith(suf)`: the last `suf.length` characters equal `suf`. -/
def endsWithStr (s suf : Str) : Bool := s.drop (s.length - suf.length) == suf

/-- `s.startswith(pre)`. -/
def startsWithStr (s pre : Str) : Bool := s.take pre.length == pre

/-- The characters `-`, `_`, `.` that PyPI treats as interchangeable
(the character class `[-_.]` of line 58). -/
def isSep (c : Char) : Bool := c = '-' || c = '_' || c = '.'

def distInfoSuffix : Str := ".dist-info".data

/-! ### The matching pattern of `resolve_package_dirs` (line 58 and 62)

`pattern = re.sub(r"\\?[-_.]", "[-_.]", re.escape(dist_name))` turns each
character of `dist_name` into either the class `[-_.]` (when the character
is one of `-`, `_`, `.`; `re.escape` prefixes `-` and `.` with a backslash,
which the `\\?` consumes) or a literally-matched character (every other
character, escaped by `re.escape`, matches itself).  Each unit of the
resulting regex consumes exactly one character, so the whole match
`re.match(rf"^{pattern}-[\d]", name, re.IGNORECASE)` succeeds iff the
name starts with: one character per token (separators matching any of
`-`, `_`, `.`, other characters matching case-insensitively), then a `-`,
then a digit. -/

inductive Tok where
  | sep : Tok
  | lit : Char → Tok
deriving DecidableEq

def patternTokens (distName : Str) : List Tok :=
  distName.map (fun c => if isSep c then Tok.sep else Tok.lit c)

def tokMatches : Tok → Char → Bool
  | Tok.sep, c => isSep c
  | Tok.lit a, c => a.toLower == c.toLower

/-- The trailing `-[\d]` of the regex on line 62. -/
def tailMatches : Str → Bool
  | '-' :: c :: _ => c.isDigit
  | _ => false

/-- `re.match(rf"^{pattern}-[\d]", name, re.IGNORECASE)` as a Bool. -/
def matchesPat : List Tok → Str → Bool
  | [], cs => tailMatches cs
  | _ :: _, [] => false
  | t :: ts, c :: cs => tokMatches t c && matchesPat ts cs

/-- A store entry `d` passes the guards of lines 60-62:
`d.name.endswith(".dist-info")` and the regex match. -/
def distInfoMatches (distName entryName : Str) : Bool :=
  endsWithStr entryName distInfoSuffix && matchesPat (patternTokens distName) entryName

/-! ### The store model

`site_packages.iterdir()` is modelled as a list of entries in enumeration
order.  `record` is `some lines` iff `d / "RECORD"` exists, holding the
lines of `record.read_text().splitlines()`.  `(site_packages / x).is_dir()`
for an arbitrary computed name `x` is modelled by the oracle `dirOracle`
(the filesystem's answer; note that on a real filesystem the answer for
`".."` is always `true` — the parent directory exists). -/

structure Entry where
  name : Str
  record : Option (List Str)
deriving DecidableEq

structure Store where
  entries : List Entry
  dirOracle : Str → Bool

def Store.isDir (s : Store) (n : Str) : Bool := s.dirOracle n

/-- `line.split(",")[0]` (line 69). -/
def firstField (line : Str) : Str := line.takeWhile (fun c => c != ',')

/-- Lines 69-71: the first field, and — when it contains a `/` — its first
path segment `file_path.split("/")[0]`. -/
def topFromLine (line : Str) : Option Str :=
  let fp := firstField line
  if fp.contains '/' then some (fp.takeWhile (fun c => c != '/')) else none

def recordTops (lines : List Str) : List Str := lines.filterMap topFromLine

/-- The filter of lines 72-77 on a candidate top-level segment. -/
def topOk (s : Store) (top : Str) : Bool :=
  !(endsWithStr top distInfoSuffix) && !(startsWithStr top ['_']) &&
    top != ['.', '.'] && s.isDir top

/-- Lexicographic order on code points, Python's `<` on `str`. -/
def strLe : Str → Str → Bool
  | [], _ => true
  | _ :: _, [] => false
  | c :: cs, d :: ds => if c = d then strLe cs ds else decide (c < d)

def insertSorted (x : Str) : List Str → List Str
  | [] => [x]
  | y :: ys => if strLe x y then x :: y :: ys else y :: insertSorted x ys

def sortStrs (l : List Str) : List Str := l.foldr insertSorted []

/-- Stable first-occurrence deduplication: the Python set-idiom of
line 167 (`seen = set(); [d for d in l if not (d in seen or seen.add(d))]`). -/
def dedupGo (seen : List Str) : List Str → List Str
  | [] => []
  | d :: rest => if d ∈ seen then dedupGo seen rest else d :: dedupGo (d :: seen) rest

def dedupFirst (l : List Str) : List Str := dedupGo [] l

/-- Lines 67-80: the set `dirs` accumulated from a RECORD's lines, returned
as `sorted(dirs)` (a set holds each name once; sorting the distinct names). -/
def recordDirs (s : Store) (lines : List Str) : List Str :=
  sortStrs (dedupFirst ((recordTops lines).filter (topOk s)))

/-- The loop of lines 59-80: scan entries in order; for each `.dist-info`
entry matching the pattern and having a RECORD, return `sorted(dirs)` if
non-empty, else keep scanning.  `none` means the loop fell through. -/
def resolveFromEntries (s : Store) (distName : Str) : List Entry → Option (List Str)
  | [] => none
  | e :: rest =>
    if distInfoMatches distName e.name then
      match e.record with
      | none => resolveFromEntries s distName rest
      | some lines =>
        let ds := recordDirs s lines
        if ds.isEmpty then resolveFromEntries s distName rest else some ds
    else resolveFromEntries s distName rest

/-- Line 82: `dist_name.lower().replace("-", "_")`. -/
def normalize (distName : Str) : Str :=
  (lowerStr distName).map (fun c => if c = '-' then '_' else c)

/-- `resolve_package_dirs` (lines 52-85). -/
def resolve_package_dirs (distName : Str) (s : Store) : List Str :=
  match resolveFromEntries s distName s.entries with
  | some ds => ds
  | none =>
    let n := normalize distName
    if s.isDir n then [n] else []

/-! ### Path-escape semantics for index targets

`site_packages / x` is inside the store root iff resolving the `/`-separated
segments of `x` (with `.` and empty segments no-ops and `..` popping one
level) never climbs above the store root. -/

/-- Split on `/`, keeping empty segments (Python `str.split("/")`). -/
def splitSeg : Str → List Str
  | [] => [[]]
  | c :: rest =>
    if c = '/' then [] :: splitSeg rest
    else
      match splitSeg rest with
      | s :: ss => (c :: s) :: ss
      | [] => [[c]]

def escapesFrom : List Str → Nat → Bool
  | [], _ => false
  | s :: rest, d =>
    if s = [] ∨ s = ['.'] then escapesFrom rest d
    else if s = ['.', '.'] then decide (d = 0) || escapesFrom rest (d - 1)
    else escapesFrom rest (d + 1)

/-- `escapes x = true` iff the relative name `x`, joined to the store root,
denotes a location outside (strictly above) the store root. -/
def escapes (x : Str) : Bool := escapesFrom (splitSeg x) 0

/-! ### The Manifest Reader: `parse_pyproject_deps` (lines 40-49) -/

/-- The delimiter class of `re.split(r"[>=<!~\[;]", dep)` on line 46. -/
def delims : List Char := ['>', '=', '<', '!', '~', '[', ';']

def isDelim (c : Char) : Bool := delims.contains c

/-- `re.split(r"[>=<!~\[;]", dep)[0].strip()`: the portion of `dep` before
the first delimiter (the whole string when none occurs), stripped. -/
def depName (dep : Str) : Str :=
  stripStr (dep.takeWhile (fun c => !isDelim c))

/-- Lines 44-49: per-declaration processing of the `dependencies` list
(the `tomllib` parse of line 42 is I/O glue; its output list is the input
here). -/
def parse_deps (deps : List Str) : List Str :=
  deps.filterMap (fun dep =>
    let n := depName dep
    if n.isEmpty then none else some n)

/-- Spec-side reformulation of the Manifest Reader rule, following the
spec's words: "split on the first occurrence of any version/environment
qualifier delimiter and keep the left portion" — the prefix of `dep` up to
the position of the first delimiter (the whole string when none occurs). -/
def beforeFirstDelim (dep : Str) : Str :=
  match dep.findIdx? (fun c => isDelim c) with
  | some i => dep.take i
  | none => dep

/-! ### The Indexing Driver: `index_directory` (lines 88-118)

The effects are modelled by an environment: whether
`(site_packages / pkg_dir).is_dir()` holds (line 92), and what
`subprocess.run(cmd, ...)` on line 110 does — `some rc` when the child
process runs and exits with status `rc`, `none` when the invocation itself
raises (e.g. `FileNotFoundError`: the `zoekt-index` executable is absent).
The function has no `try`/`finally`: when line 110 raises, line 111's
`unlink` is never executed (the temp descriptor leaks) and the exception
propagates to the caller. -/

structure ExecEnv where
  pkgIsDir : Bool
  runResult : Option Int
deriving DecidableEq

inductive PyOutcome where
  | ret : Bool → PyOutcome
  | raised : PyOutcome
deriving DecidableEq

structure IndexRun where
  outcome : PyOutcome
  /-- the transient meta descriptor was created but never unlinked -/
  leaked : Bool
  /-- the child process actually ran -/
  invoked : Bool
deriving DecidableEq

def index_directory (env : ExecEnv) : IndexRun :=
  if env.pkgIsDir = false then
    -- lines 92-94: print SKIP, return False; no temp file created yet
    { outcome := PyOutcome.ret false, leaked := false, invoked := false }
  else
    match env.runResult with
    | none =>
      -- line 110 raises before line 111: no unlink, exception escapes
      { outcome := PyOutcome.raised, leaked := true, invoked := false }
    | some rc =>
      -- lines 110-118: unlink always runs; True iff returncode == 0
      { outcome := PyOutcome.ret (rc = 0), leaked := false, invoked := true }

/-! ### The Orchestrator: `main` (lines 121-179) -/

/-- `args.packages` is `None` when the flag is absent and `some l` (possibly
`some []`, from `--packages` with zero arguments) when present; Python's
`if args.packages:` is truthy only for a present, non-empty list. -/
def argsTruthy : Option (List Str) → Bool
  | none => false
  | some l => !l.isEmpty

/-- Line 141-144: the packages-file contents, one name per line, stripped,
blank and `#`-prefixed lines dropped (`startswith("#")` tests the raw
line). -/
def filePackages (lines : List Str) : List Str :=
  lines.filterMap (fun l =>
    if !(stripStr l).isEmpty && !(startsWithStr l ['#']) then some (stripStr l) else none)

inductive Fatal where
  | noPyproject : Fatal
  | noPackages : Fatal
deriving DecidableEq

/-- `args.packages`; `args.packages_file` modelled as `some lines` iff the
flag was given (with a truthy path), holding the file's lines; the pyproject
manifest modelled as `some deps` iff the file exists, holding its declared
dependency strings. -/
structure Args where
  packages : Option (List Str)
  packagesFile : Option (List Str)
  pyproject : Option (List Str)

/-- Lines 136-154: source selection by priority, then the no-packages
fatal check. -/
def collectPackages (a : Args) : Except Fatal (List Str) :=
  let pkgs : Except Fatal (List Str) :=
    if argsTruthy a.packages then Except.ok (a.packages.getD [])
    else if a.packagesFile.isSome then Except.ok (filePackages (a.packagesFile.getD []))
    else
      match a.pyproject with
      | some deps => Except.ok (parse_deps deps)
      | none => Except.error Fatal.noPyproject
  match pkgs with
  | Except.error e => Except.error e
  | Except.ok l => if l.isEmpty then Except.error Fatal.noPackages else Except.ok l

/-- Lines 157-167: flatten each name's resolution (names resolving to
nothing contribute nothing) and deduplicate preserving first-seen order. -/
def mainWorkList (packages : List Str) (s : Store) : List Str :=
  dedupFirst (packages.flatMap (fun p => resolve_package_dirs p s))

/-- Lines 172-177: the ok/failed tally over the indexing loop.  An
exception from `index_directory` aborts the run (`Except.error`). -/
def runAllFrom (ok failed : Nat) : List ExecEnv → Except Unit (Nat × Nat)
  | [] => Except.ok (ok, failed)
  | e :: rest =>
    match (index_directory e).outcome with
    | PyOutcome.raised => Except.error ()
    | PyOutcome.ret true => runAllFrom (ok + 1) failed rest
    | PyOutcome.ret false => runAllFrom ok (failed + 1) rest

def runAll (envs : List ExecEnv) : Except Unit (Nat × Nat) := runAllFrom 0 0 envs

/-! ### Name equivalence: "differs only in separator choice and letter case"

Two distribution names differ only in the choice of separator characters
and in letter case when they have the same length and, position by
position, either both characters are separators (`-`, `_`, `.`) or neither
is and they agree up to case. -/

def charEquiv (c d : Char) : Bool :=
  if isSep c then isSep d else !isSep d && (c.toLower == d.toLower)

def namesEquiv : Str → Str → Bool
  | [], [] => true
  | c :: cs, d :: ds => charEquiv c d && namesEquiv cs ds
  | _, _ => false

/-! ### Concrete stores and environments for counterexamples and witnesses

The `dirOracle` of each store answers `(site_packages / x).is_dir()`.  For
`storeKO4` the oracle answers `true` on `".."`: on a real filesystem the
parent of `site-packages` always exists and is a directory. -/

def storeKO1 : Store := ⟨[], fun n => n = "a_b".data⟩

def entW2 : Entry := ⟨"foo-1.0.dist-info".data, some ["foo/__init__.py,sha256=ab,22".data]⟩

def storeW2 : Store := ⟨[entW2], fun n => n = "foo".data⟩

def storeKO3 : Store := ⟨[], fun n => n = "_x".data⟩

def storeW3 : Store :=
  ⟨[⟨"Mypkg-1.0.dist-info".data, some ["mypkg/__init__.py,h,1".data]⟩],
   fun n => n = "mypkg".data⟩

def storeKO4 : Store := ⟨[], fun n => n = "..".data⟩

def storeW4 : Store :=
  ⟨[⟨"pkg-1.0.dist-info".data, some ["pkg/main.py,h,9".data]⟩],
   fun n => n = "pkg".data⟩

def storeW1 : Store :=
  ⟨[⟨"Foo-Bar-2.0.dist-info".data, some ["foo_bar/__init__.py,h,10".data]⟩],
   fun n => n = "foo_bar".data⟩

def storeW6 : Store :=
  ⟨[⟨"aa-1.0.dist-info".data, some ["gone/x.py,h,1".data]⟩], fun n => n = "aa".data⟩

def storeC8 : Store := ⟨[], fun n => n = "a".data || n = "b".data⟩

/-! ## Helper lemmas -/

theorem mem_dedupGo (x : Str) (l : List Str) :
    ∀ seen, x ∈ dedupGo seen l ↔ x ∈ l ∧ x ∉ seen := by
  induction l with
  | nil => intro seen; simp [dedupGo]
  | cons d rest ih =>
    intro seen
    by_cases hd : d ∈ seen
    · rw [dedupGo, if_pos hd, ih seen]
      simp only [List.mem_cons]
      constructor
      · rintro ⟨hx, hns⟩; exact ⟨Or.inr hx, hns⟩
      · rintro ⟨hx | hx, hns⟩
        · exact absurd (hx ▸ hd) hns
        · exact ⟨hx, hns⟩
    · rw [dedupGo, if_neg hd]
      simp only [List.mem_cons, ih (d :: seen), List.mem_cons]
      constructor
      · rintro (rfl | ⟨hx, hns⟩)
        · exact ⟨Or.inl rfl, hd⟩
        · exact ⟨Or.inr hx, fun hmem => hns (Or.inr hmem)⟩
      · rintro ⟨rfl | hx, hns⟩
        · exact Or.inl rfl
        · by_cases hxd : x = d
          · exact Or.inl hxd
          · exact Or.inr ⟨hx, fun hmem => hmem.elim hxd hns⟩

theorem mem_dedupFirst (x : Str) (l : List Str) : x ∈ dedupFirst l ↔ x ∈ l := by
  rw [dedupFirst, mem_dedupGo]
  simp

theorem nodup_dedupGo (l : List Str) : ∀ seen, (dedupGo seen l).Nodup := by
  induction l with
  | nil => intro _; simp [dedupGo]
  | cons d rest ih =>
    intro seen
    by_cases hd : d ∈ seen
    · rw [dedupGo, if_pos hd]; exact ih seen
    · rw [dedupGo, if_neg hd]
      refine List.nodup_cons.mpr ⟨fun hmem => ?_, ih _⟩
      exact ((mem_dedupGo d rest (d :: seen)).mp hmem).2 (List.mem_cons_self d seen)

theorem sublist_dedupGo (l : List Str) : ∀ seen, List.Sublist (dedupGo seen l) l := by
  induction l with
  | nil => intro _; simp [dedupGo]
  | cons d rest ih =>
    intro seen
    by_cases hd : d ∈ seen
    · rw [dedupGo, if_pos hd]
      exact (ih seen).trans (List.sublist_cons_self d rest)
    · rw [dedupGo, if_neg hd]
      exact (ih _).cons₂ d

theorem dedupGo_congr (l : List Str) :
    ∀ s1 s2, (∀ y, y ∈ s1 ↔ y ∈ s2) → dedupGo s1 l = dedupGo s2 l := by
  induction l with
  | nil => intro _ _ _; rfl
  | cons d rest ih =>
    intro s1 s2 h
    by_cases hd : d ∈ s1
    · rw [dedupGo, if_pos hd, dedupGo, if_pos ((h d).mp hd)]
      exact ih s1 s2 h
    · rw [dedupGo, if_neg hd, dedupGo, if_neg (fun hh => hd ((h d).mpr hh))]
      rw [ih (d :: s1) (d :: s2) (fun y => by simp only [List.mem_cons, h y])]

theorem dedupGo_filter (l : List Str) :
    ∀ (seen : List Str) (a : Str),
      dedupGo (a :: seen) l = dedupGo seen (l.filter (fun x => x ≠ a)) := by
  induction l with
  | nil => intro _ _; rfl
  | cons d rest ih =>
    intro seen a
    by_cases hda : d = a
    · subst hda
      rw [dedupGo, if_pos (List.mem_cons_self d seen)]
      have hfil : (List.filter (fun x => decide ¬(x = d)) (d :: rest))
          = List.filter (fun x => decide ¬(x = d)) rest := by
        simp [List.filter_cons]
      simp only [ne_eq] at hfil ⊢
      rw [hfil]
      exact ih seen d
    · by_cases hd : d ∈ seen
      · rw [dedupGo, if_pos (List.mem_cons_of_mem a hd)]
        have hfil : (List.filter (fun x => decide ¬(x = a)) (d :: rest))
            = d :: List.filter (fun x => decide ¬(x = a)) rest := by
          simp [List.filter_cons, hda]
        simp only [ne_eq] at hfil ⊢
        rw [hfil, dedupGo, if_pos hd]
        exact ih seen a
      · have hdmem : d ∉ a :: seen := by
          intro hmem
          rcases List.mem_cons.mp hmem with h1 | h2
          · exact hda h1
          · exact hd h2
        rw [dedupGo, if_neg hdmem]
        have hfil : (List.filter (fun x => decide ¬(x = a)) (d :: rest))
            = d :: List.filter (fun x => decide ¬(x = a)) rest := by
          simp [List.filter_cons, hda]
        simp only [ne_eq] at hfil ⊢
        rw [hfil, dedupGo, if_neg hd]
        congr 1
        calc dedupGo (d :: a :: seen) rest
            = dedupGo (a :: d :: seen) rest := by
              exact dedupGo_congr rest _ _ (fun y => by
                simp only [List.mem_cons]; tauto)
          _ = dedupGo (d :: seen) (rest.filter (fun x => x ≠ a)) := ih (d :: seen) a

theorem dedupFirst_cons (a : Str) (l : List Str) :
    dedupFirst (a :: l) = a :: dedupFirst (l.filter (fun x => x ≠ a)) := by
  rw [dedupFirst, dedupGo, if_neg (List.not_mem_nil a)]
  rw [dedupGo_filter l [] a]
  rfl

theorem mem_insertSorted (x a : Str) (l : List Str) :
    x ∈ insertSorted a l ↔ x = a ∨ x ∈ l := by
  induction l with
  | nil => simp [insertSorted]
  | cons y ys ih =>
    by_cases h : strLe a y
    · simp [insertSorted, h, List.mem_cons]
    · simp only [insertSorted, if_neg h, List.mem_cons, ih]
      tauto

theorem mem_sortStrs (x : Str) (l : List Str) : x ∈ sortStrs l ↔ x ∈ l := by
  induction l with
  | nil => simp [sortStrs]
  | cons y ys ih =>
    simp only [sortStrs, List.foldr_cons] at ih ⊢
    rw [mem_insertSorted, ih, List.mem_cons]

theorem topOk_iff (s : Store) (top : Str) :
    topOk s top = true ↔
      endsWithStr top distInfoSuffix = false ∧ startsWithStr top ['_'] = false ∧
        top ≠ ['.', '.'] ∧ s.isDir top = true := by
  simp [topOk, Bool.and_eq_true, Bool.not_eq_true', bne_iff_ne, and_assoc]

theorem mem_recordDirs (s : Store) (lines : List Str) (x : Str) :
    x ∈ recordDirs s lines ↔ x ∈ recordTops lines ∧ topOk s x = true := by
  rw [recordDirs, mem_sortStrs, mem_dedupFirst, List.mem_filter]

theorem recordDirs_ne_nil_of_mem (s : Store) (lines : List Str) (x : Str)
    (hx : x ∈ recordDirs s lines) : (recordDirs s lines).isEmpty = false := by
  cases h : recordDirs s lines with
  | nil => rw [h] at hx; exact absurd hx (List.not_mem_nil x)
  | cons a l => simp [List.isEmpty]

theorem resolveFromEntries_some (s : Store) (nm : Str) (l : List Entry)
    (ds : List Str) (h : resolveFromEntries s nm l = some ds) :
    ∃ e ∈ l, distInfoMatches nm e.name = true ∧
      ∃ lines, e.record = some lines ∧ ds = recordDirs s lines := by
  induction l with
  | nil => exact absurd h (by simp [resolveFromEntries])
  | cons e rest ih =>
    rw [resolveFromEntries] at h
    by_cases hm : distInfoMatches nm e.name
    · rw [if_pos hm] at h
      cases hrec : e.record with
      | none =>
        rw [hrec] at h
        obtain ⟨e', he', hall⟩ := ih h
        exact ⟨e', List.mem_cons_of_mem e he', hall⟩
      | some lines =>
        rw [hrec] at h
        dsimp only at h
        by_cases hne : (recordDirs s lines).isEmpty
        · rw [if_pos hne] at h
          obtain ⟨e', he', hall⟩ := ih h
          exact ⟨e', List.mem_cons_of_mem e he', hall⟩
        · rw [if_neg hne] at h
          exact ⟨e, List.mem_cons_self e rest, hm, lines, hrec,
            (Option.some_inj.mp h).symm⟩
    · rw [if_neg hm] at h
      obtain ⟨e', he', hall⟩ := ih h
      exact ⟨e', List.mem_cons_of_mem e he', hall⟩

theorem resolveFromEntries_none (s : Store) (nm : Str) (l : List Entry)
    (h : resolveFromEntries s nm l = none) :
    ∀ e ∈ l, distInfoMatches nm e.name = true →
      ∀ lines, e.record = some lines → recordDirs s lines = [] := by
  induction l with
  | nil => intro e he; exact absurd he (List.not_mem_nil e)
  | cons e rest ih =>
    intro e' he' hm lines hrec
    rw [resolveFromEntries] at h
    rcases List.mem_cons.mp he' with rfl | htail
    · rw [if_pos hm, hrec] at h
      dsimp only at h
      by_cases hne : (recordDirs s lines).isEmpty
      · exact List.isEmpty_iff.mp hne
      · rw [if_neg hne] at h; exact absurd h (by simp)
    · by_cases hm0 : distInfoMatches nm e.name
      · rw [if_pos hm0] at h
        cases hrec0 : e.record with
        | none => rw [hrec0] at h; exact ih h e' htail hm lines hrec
        | some lines0 =>
          rw [hrec0] at h
          dsimp only at h
          by_cases hne : (recordDirs s lines0).isEmpty
          · rw [if_pos hne] at h; exact ih h e' htail hm lines hrec
          · rw [if_neg hne] at h; exact absurd h (by simp)
      · rw [if_neg hm0] at h
        exact ih h e' htail hm lines hrec

theorem resolveFromEntries_uniq (s : Store) (nm : Str) (l : List Entry)
    (e : Entry) (lines : List Str)
    (he : e ∈ l) (hm : distInfoMatches nm e.name = true)
    (huniq : ∀ e2 ∈ l, distInfoMatches nm e2.name = true → e2 = e)
    (hrec : e.record = some lines)
    (hne : (recordDirs s lines).isEmpty = false) :
    resolveFromEntries s nm l = some (recordDirs s lines) := by
  induction l with
  | nil => exact absurd he (List.not_mem_nil e)
  | cons e0 rest ih =>
    rw [resolveFromEntries]
    by_cases hm0 : distInfoMatches nm e0.name
    · have he0 : e0 = e := huniq e0 (List.mem_cons_self e0 rest) hm0
      subst he0
      rw [if_pos hm0, hrec]
      dsimp only
      rw [hne]
      simp
    · rw [if_neg hm0]
      have hetail : e ∈ rest := by
        rcases List.mem_cons.mp he with rfl | htail
        · exact absurd hm hm0
        · exact htail
      exact ih hetail (fun e2 h2 hm2 => huniq e2 (List.mem_cons_of_mem e0 h2) hm2)

theorem isDir_of_mem_resolve (nm x : Str) (s : Store)
    (hx : x ∈ resolve_package_dirs nm s) : s.isDir x = true := by
  rw [resolve_package_dirs] at hx
  cases hres : resolveFromEntries s nm s.entries with
  | some ds =>
    rw [hres] at hx
    obtain ⟨e, _, _, lines, _, rfl⟩ := resolveFromEntries_some s nm s.entries ds hres
    exact ((topOk_iff s x).mp ((mem_recordDirs s lines x).mp hx).2).2.2.2
  | none =>
    rw [hres] at hx
    by_cases hdir : s.isDir (normalize nm)
    · rw [if_pos hdir] at hx
      rcases List.mem_singleton.mp hx with rfl
      exact hdir
    · rw [if_neg hdir] at hx
      exact absurd hx (List.not_mem_nil x)

theorem not_slash_of_mem_recordTops (x : Str) (lines : List Str)
    (hx : x ∈ recordTops lines) : '/' ∉ x := by
  simp only [recordTops, List.mem_filterMap] at hx
  obtain ⟨line, _, hline⟩ := hx
  rw [topFromLine] at hline
  by_cases hif : (firstField line).contains '/'
  · rw [if_pos hif] at hline
    cases hline
    intro hmem
    have := List.mem_takeWhile_imp hmem
    simp at this
  · rw [if_neg hif] at hline
    exact absurd hline (by simp)

theorem ne_parent_of_topOk (s : Store) (x : Str) (h : topOk s x = true) :
    x ≠ ['.', '.'] := ((topOk_iff s x).mp h).2.2.1

theorem splitSeg_no_slash (x : Str) (h : '/' ∉ x) : splitSeg x = [x] := by
  induction x with
  | nil => rfl
  | cons c cs ih =>
    have hc : ¬(c = '/') := fun hh => h (hh ▸ List.mem_cons_self c cs)
    have hcs : '/' ∉ cs := fun hm => h (List.mem_cons_of_mem c hm)
    rw [splitSeg, if_neg hc, ih hcs]

theorem escapes_single (x : Str) (hs : '/' ∉ x) (hp : x ≠ ['.', '.']) :
    escapes x = false := by
  rw [escapes, splitSeg_no_slash x hs]
  by_cases h1 : x = [] ∨ x = ['.']
  · rw [escapesFrom, if_pos h1]; rfl
  · rw [escapesFrom, if_neg h1, if_neg hp]; rfl

theorem dash_not_mem_normalize (nm : Str) : '-' ∉ normalize nm := by
  rw [normalize]
  intro h
  obtain ⟨c, _, hc⟩ := List.mem_map.mp h
  by_cases hcd : c = '-'
  · rw [if_pos hcd] at hc
    exact absurd hc (by decide)
  · rw [if_neg hcd] at hc
    exact hcd hc

theorem not_endsWith_of_no_dash (x : Str) (h : '-' ∉ x) :
    endsWithStr x distInfoSuffix = false := by
  rw [← Bool.not_eq_true]
  intro htrue
  rw [endsWithStr] at htrue
  have heq : x.drop (x.length - distInfoSuffix.length) = distInfoSuffix :=
    beq_iff_eq.mp htrue
  have hdash : '-' ∈ distInfoSuffix := by decide
  rw [← heq] at hdash
  exact h ((List.drop_sublist _ _).subset hdash)

theorem normalize_not_endsWith (nm : Str) :
    endsWithStr (normalize nm) distInfoSuffix = false :=
  not_endsWith_of_no_dash (normalize nm) (dash_not_mem_normalize nm)

/-! ### Pattern congruence under separator/case equivalence -/

theorem isSep_of_charEquiv_left (c d : Char) (h : charEquiv c d = true)
    (hc : isSep c = true) : isSep d = true := by
  rw [charEquiv, if_pos hc] at h
  exact h

theorem charEquiv_not_sep (c d : Char) (h : charEquiv c d = true)
    (hc : isSep c = false) : isSep d = false ∧ c.toLower = d.toLower := by
  rw [charEquiv, if_neg (by simp [hc])] at h
  simp only [Bool.and_eq_true] at h
  obtain ⟨h1, h2⟩ := h
  exact ⟨by simpa using h1, beq_iff_eq.mp h2⟩

theorem matchesPat_congr (a : Str) :
    ∀ b : Str, namesEquiv a b = true →
      ∀ cs : Str, matchesPat (patternTokens a) cs = matchesPat (patternTokens b) cs := by
  induction a with
  | nil =>
    intro b hb cs
    cases b with
    | nil => rfl
    | cons d ds => exact Bool.noConfusion hb
  | cons c as ih =>
    intro b hb cs
    cases b with
    | nil => exact Bool.noConfusion hb
    | cons d ds =>
      rw [namesEquiv] at hb
      simp only [Bool.and_eq_true] at hb
      obtain ⟨hcd, hrest⟩ := hb
      cases cs with
      | nil =>
        simp only [patternTokens, List.map_cons, matchesPat]
      | cons y ys =>
        simp only [patternTokens, List.map_cons, matchesPat]
        have htok : tokMatches (if isSep c = true then Tok.sep else Tok.lit c) y
            = tokMatches (if isSep d = true then Tok.sep else Tok.lit d) y := by
          by_cases hc : isSep c = true
          · rw [if_pos hc, if_pos (isSep_of_charEquiv_left c d hcd hc)]
          · have hc' : isSep c = false := by
              cases hcc : isSep c
              · rfl
              · exact absurd hcc hc
            obtain ⟨hd, hlow⟩ := charEquiv_not_sep c d hcd hc'
            rw [if_neg hc, if_neg (by rw [hd]; simp)]
            simp only [tokMatches, hlow]
        rw [htok]
        have hih := ih ds hrest ys
        simp only [patternTokens] at hih
        rw [hih]

theorem distInfoMatches_congr (a b : Str) (h : namesEquiv a b = true)
    (entryName : Str) : distInfoMatches a entryName = distInfoMatches b entryName := by
  rw [distInfoMatches, distInfoMatches, matchesPat_congr a b h entryName]

theorem resolveFromEntries_congr (s : Store) (a b : Str) (h : namesEquiv a b = true) :
    ∀ l : List Entry, resolveFromEntries s a l = resolveFromEntries s b l := by
  intro l
  induction l with
  | nil => rfl
  | cons e rest ih =>
    rw [resolveFromEntries, resolveFromEntries, distInfoMatches_congr a b h e.name]
    by_cases hm : distInfoMatches b e.name = true
    · rw [if_pos hm, if_pos hm]
      cases e.record with
      | none => exact ih
      | some lines =>
        dsimp only
        by_cases hne : (recordDirs s lines).isEmpty
        · rw [if_pos hne, if_pos hne]; exact ih
        · rw [if_neg hne, if_neg hne]
    · rw [if_neg hm, if_neg hm]; exact ih

theorem takeWhile_not_delim (dep : Str) :
    dep.takeWhile (fun c => !isDelim c) = beforeFirstDelim dep := by
  induction dep with
  | nil => rfl
  | cons c cs ih =>
    by_cases hc : isDelim c = true
    · rw [beforeFirstDelim, List.findIdx?_cons, if_pos hc]
      simp [List.takeWhile_cons, hc]
    · have hc0 : isDelim c = false := by
        cases h : isDelim c
        · rfl
        · exact absurd h hc
      rw [beforeFirstDelim, List.findIdx?_cons, if_neg hc]
      simp only [List.takeWhile_cons, hc0, Bool.not_false, if_true]
      rw [ih, beforeFirstDelim]
      cases hidx : cs.findIdx? (fun c => isDelim c) with
      | none => simp [hidx]
      | some i => simp [hidx]

/-! ## Claim theorems -/

/-- Claim C7 (confirmed): for every dependency declaration string, the
Manifest Reader keeps the portion before the first occurrence of any of
`>`, `=`, `<`, `!`, `~`, `[`, `;`, trimmed of surrounding whitespace,
discarding empty results; the manifest `dependencies = ["pkg>=1.0,<2.0"]`
yields exactly `["pkg"]`; duplicates and declaration order are preserved
(processing is a filterMap, hence distributes over concatenation). -/
theorem C7_thm :
    (∀ dep : Str, depName dep = stripStr (beforeFirstDelim dep)) ∧
    parse_deps ["pkg>=1.0,<2.0".data] = ["pkg".data] ∧
    (∀ ds es : List Str, parse_deps (ds ++ es) = parse_deps ds ++ parse_deps es) := by
  refine ⟨?_, by decide, ?_⟩
  · intro dep
    rw [depName, takeWhile_not_delim]
  · intro ds es
    rw [parse_deps, parse_deps, parse_deps, List.filterMap_append]

/-- Claim C8 (confirmed): the Orchestrator's deduplication keeps exactly
the first occurrence of each directory name (result is duplicate-free,
contains exactly the names of the input, is a sublist of the input —
hence preserves first-seen order — and satisfies the recursive
first-occurrence law); resolving `["a","b","a"]` against a store where
`a` resolves to directory `a` both times yields `a` exactly once, at the
position where `a` first appeared. -/
theorem C8_thm :
    (∀ l : List Str, (dedupFirst l).Nodup) ∧
    (∀ (l : List Str) (x : Str), x ∈ dedupFirst l ↔ x ∈ l) ∧
    (∀ l : List Str, List.Sublist (dedupFirst l) l) ∧
    (∀ (a : Str) (l : List Str),
      dedupFirst (a :: l) = a :: dedupFirst (l.filter (fun x => x ≠ a))) ∧
    mainWorkList ["a".data, "b".data, "a".data] storeC8 = ["a".data, "b".data] := by
  refine ⟨fun l => nodup_dedupGo l [], fun l x => mem_dedupFirst x l,
    fun l => sublist_dedupGo l [], dedupFirst_cons, by decide⟩

/-- Claim C9 (confirmed): when the explicit-list option is supplied with
zero names (`--packages` with an empty list), the Orchestrator behaves
exactly as if the option were absent: selection falls through to the
file-of-names source or the manifest source. -/
theorem C9_thm (f p : Option (List Str)) :
    collectPackages ⟨some [], f, p⟩ = collectPackages ⟨none, f, p⟩ := rfl

/-- Claim C2 (confirmed): against a store whose metadata directory `e` is
the one matching the distribution name, if `e`'s file-manifest record lists
a path with first segment `x` that passes the suffix/underscore/parent
filters, then `x` is in the resolution result exactly when `x` exists as a
directory under the store; when its directory does not exist, `x` is
excluded even though listed. -/
theorem C2_thm (s : Store) (name : Str) (e : Entry) (lines : List Str) (x : Str)
    (he : e ∈ s.entries)
    (hm : distInfoMatches name e.name = true)
    (huniq : ∀ e2 ∈ s.entries, distInfoMatches name e2.name = true → e2 = e)
    (hrec : e.record = some lines)
    (hlisted : x ∈ recordTops lines)
    (hsuf : endsWithStr x distInfoSuffix = false)
    (hund : startsWithStr x ['_'] = false)
    (hpar : x ≠ ['.', '.']) :
    (s.isDir x = true → x ∈ resolve_package_dirs name s) ∧
    (s.isDir x = false → x ∉ resolve_package_dirs name s) := by
  constructor
  · intro hdir
    have hok : topOk s x = true :=
      (topOk_iff s x).mpr ⟨hsuf, hund, hpar, hdir⟩
    have hmem : x ∈ recordDirs s lines :=
      (mem_recordDirs s lines x).mpr ⟨hlisted, hok⟩
    have hres : resolveFromEntries s name s.entries = some (recordDirs s lines) :=
      resolveFromEntries_uniq s name s.entries e lines he hm huniq hrec
        (recordDirs_ne_nil_of_mem s lines x hmem)
    rw [resolve_package_dirs, hres]
    exact hmem
  · intro hdir hmem
    rw [isDir_of_mem_resolve name x s hmem] at hdir
    exact Bool.noConfusion hdir

/-- Witness for C2 at a concrete store: `foo-1.0.dist-info/RECORD` lists
`foo/__init__.py` and directory `foo` exists, so `foo` is resolved. -/
theorem C2_witness :
    "foo".data ∈ resolve_package_dirs "foo".data storeW2 := by
  have h := C2_thm storeW2 "foo".data entW2 ["foo/__init__.py,sha256=ab,22".data]
    "foo".data (by decide) (by decide) (by decide) (by decide) (by decide)
    (by decide) (by decide) (by decide)
  exact h.1 (by decide)

/-- Claim C5 (code_bug): the claim says the transient metadata descriptor
is removed on every exit path — including when the external process fails
to start — and that `index_directory` never raises.  The code has no
`try`/`finally`: when `subprocess.run` on line 110 raises (e.g.
`FileNotFoundError` because `zoekt-index` is not on `PATH`), line 111's
`unlink` never runs and the exception escapes.  Evaluating the embedded
function at that failing input: the call raises past the boundary and the
descriptor leaks. -/
theorem C5_thm :
    index_directory ⟨true, none⟩ =
      { outcome := PyOutcome.raised, leaked := true, invoked := false } := rfl

/-- Claim C6 (confirmed): when the fallback is reached (the metadata loop
fell through), no matching metadata directory's record yields a non-empty
set of qualifying top-level directories, and the result has at most one
element. -/
theorem C6_thm (s : Store) (name : Str)
    (h : resolveFromEntries s name s.entries = none) :
    (∀ e ∈ s.entries, distInfoMatches name e.name = true →
      ∀ lines, e.record = some lines → recordDirs s lines = []) ∧
    (resolve_package_dirs name s).length ≤ 1 := by
  refine ⟨resolveFromEntries_none s name s.entries h, ?_⟩
  rw [resolve_package_dirs, h]
  by_cases hdir : s.isDir (normalize name)
  · rw [if_pos hdir]; exact Nat.le_refl 1
  · rw [if_neg hdir]; exact Nat.zero_le 1

/-- Witness for C6 at a concrete store: `aa-1.0.dist-info`'s record lists
only a directory that does not exist on disk, so the loop falls through
and the fallback returns the single directory `aa`. -/
theorem C6_witness :
    (∀ e ∈ storeW6.entries, distInfoMatches "aa".data e.name = true →
      ∀ lines, e.record = some lines → recordDirs storeW6 lines = []) ∧
    (resolve_package_dirs "aa".data storeW6).length ≤ 1 :=
  C6_thm storeW6 "aa".data (by decide)

theorem runAllFrom_congr (e1 e2 : ExecEnv)
    (h1 : (index_directory e1).outcome = PyOutcome.ret false)
    (h2 : (index_directory e2).outcome = PyOutcome.ret false)
    (post : List ExecEnv) :
    ∀ (pre : List ExecEnv) (ok failed : Nat),
      runAllFrom ok failed (pre ++ e1 :: post) = runAllFrom ok failed (pre ++ e2 :: post) := by
  intro pre
  induction pre with
  | nil =>
    intro ok failed
    simp only [List.nil_append, runAllFrom, h1, h2]
  | cons e rest ih =>
    intro ok failed
    simp only [List.cons_append, runAllFrom]
    cases (index_directory e).outcome with
    | raised => rfl
    | ret b => cases b <;> exact ih _ _

/-- Claim C10 (confirmed): a directory name whose path under the store is
not an existing directory makes `index_directory` return `False` without
invoking the external indexer, and the Orchestrator's final tally counts
it exactly as it counts an indexer run that exits non-zero. -/
theorem C10_thm (env fail : ExecEnv) (rc : Int)
    (henv : env.pkgIsDir = false)
    (hfail : fail.pkgIsDir = true) (hrc : fail.runResult = some rc) (hrc0 : rc ≠ 0)
    (pre post : List ExecEnv) :
    (index_directory env).outcome = PyOutcome.ret false ∧
    (index_directory env).invoked = false ∧
    runAll (pre ++ env :: post) = runAll (pre ++ fail :: post) := by
  have henv1 : index_directory env =
      { outcome := PyOutcome.ret false, leaked := false, invoked := false } := by
    rw [index_directory, if_pos henv]
  have hfail1 : (index_directory fail).outcome = PyOutcome.ret false := by
    rw [index_directory, if_neg (by rw [hfail]; exact Bool.noConfusion), hrc]
    simp [hrc0]
  refine ⟨by rw [henv1], by rw [henv1], ?_⟩
  rw [runAll, runAll]
  exact runAllFrom_congr env fail (by rw [henv1]) hfail1 post pre 0 0

/-- Witness for C10 at a concrete input: a skipped (non-directory) item and
a non-zero-exit item yield the same tally. -/
theorem C10_witness :
    (index_directory ⟨false, none⟩).outcome = PyOutcome.ret false ∧
    (index_directory ⟨false, none⟩).invoked = false ∧
    runAll ([⟨true, some 0⟩] ++ ⟨false, none⟩ :: []) =
      runAll ([⟨true, some 0⟩] ++ ⟨true, some 1⟩ :: []) :=
  C10_thm ⟨false, none⟩ ⟨true, some 1⟩ 1 rfl rfl rfl (by decide)
    [⟨true, some 0⟩] []

/-- Counterexample to claim C1: `a-b` and `a.b` differ only in the choice
of separator character, yet against the same store (no metadata entries,
directory `a_b` present) the fallback resolves `a-b` to `["a_b"]` and
`a.b` to `[]` — the fallback normalization replaces only `-` by `_`,
leaving `.` alone. -/
theorem C1_counterexample :
    namesEquiv "a-b".data "a.b".data = true ∧
    resolve_package_dirs "a-b".data storeKO1 ≠ resolve_package_dirs "a.b".data storeKO1 := by
  exact ⟨by decide, by decide⟩

/-- Claim C1 (amended): for distribution names differing only in separator
choice and letter case, the metadata-record path of resolution is
identical; the full resolution result (fallback included) is identical
whenever the two names' normalized forms (lowercase with `-` replaced by
`_`) also coincide. -/
theorem C1_amended_thm (a b : Str) (s : Store) (h : namesEquiv a b = true) :
    resolveFromEntries s a s.entries = resolveFromEntries s b s.entries ∧
    (normalize a = normalize b → resolve_package_dirs a s = resolve_package_dirs b s) := by
  have hcong := resolveFromEntries_congr s a b h s.entries
  refine ⟨hcong, fun hnorm => ?_⟩
  rw [resolve_package_dirs, resolve_package_dirs, hcong, hnorm]

/-- Witness for C1 (amended) at concrete names `Foo-Bar` and `foo_bar`
against a store holding `Foo-Bar-2.0.dist-info`. -/
theorem C1_witness :
    resolveFromEntries storeW1 "Foo-Bar".data storeW1.entries =
      resolveFromEntries storeW1 "foo_bar".data storeW1.entries ∧
    resolve_package_dirs "Foo-Bar".data storeW1 =
      resolve_package_dirs "foo_bar".data storeW1 := by
  have h := C1_amended_thm "Foo-Bar".data "foo_bar".data storeW1 (by decide)
  exact ⟨h.1, h.2 (by decide)⟩

/-- Counterexample to claim C3: with no metadata entries and a directory
`_x` present, resolving the distribution name `_x` returns `["_x"]` via
the fallback — a result that starts with `_`, which the claim rules out. -/
theorem C3_counterexample :
    resolve_package_dirs "_x".data storeKO3 = ["_x".data] ∧
    startsWithStr "_x".data ['_'] = true := by
  exact ⟨by decide, by decide⟩

/-- Claim C3 (amended): no resolution result ever ends with `.dist-info`
(on the metadata path the filter removes such segments; the fallback's
normalized name contains no `-` and so cannot carry the suffix); on the
metadata-record path no result ever starts with `_`, unconditionally; and
on the fallback path (in fact in general) no result starts with `_`
provided the normalized distribution name itself does not start with `_`
(the fallback result is the normalized name itself, so a leading `_` in
it survives). -/
theorem C3_amended_thm (s : Store) (name x : Str)
    (hx : x ∈ resolve_package_dirs name s) :
    endsWithStr x distInfoSuffix = false ∧
    (∀ ds, resolveFromEntries s name s.entries = some ds →
      startsWithStr x ['_'] = false) ∧
    (startsWithStr (normalize name) ['_'] = false → startsWithStr x ['_'] = false) := by
  rw [resolve_package_dirs] at hx
  cases hres : resolveFromEntries s name s.entries with
  | some ds =>
    rw [hres] at hx
    obtain ⟨e, _, _, lines, _, rfl⟩ := resolveFromEntries_some s name s.entries ds hres
    obtain ⟨_, hok⟩ := (mem_recordDirs s lines x).mp hx
    obtain ⟨hsuf, hund, _, _⟩ := (topOk_iff s x).mp hok
    exact ⟨hsuf, fun _ _ => hund, fun _ => hund⟩
  | none =>
    rw [hres] at hx
    by_cases hdir : s.isDir (normalize name)
    · rw [if_pos hdir] at hx
      rcases List.mem_singleton.mp hx with rfl
      refine ⟨normalize_not_endsWith name, fun ds hsome => ?_, fun hn => hn⟩
      exact Option.noConfusion hsome
    · rw [if_neg hdir] at hx
      exact absurd hx (List.not_mem_nil x)

/-- Witness for C3 (amended) at the metadata-path resolution of `Mypkg`
to `mypkg` (store `storeW3`). -/
theorem C3_witness :
    endsWithStr "mypkg".data distInfoSuffix = false ∧
    (∀ ds, resolveFromEntries storeW3 "Mypkg".data storeW3.entries = some ds →
      startsWithStr "mypkg".data ['_'] = false) ∧
    (startsWithStr (normalize "Mypkg".data) ['_'] = false →
      startsWithStr "mypkg".data ['_'] = false) :=
  C3_amended_thm storeW3 "Mypkg".data "mypkg".data (by decide)

/-- Counterexample to claim C4: resolving the distribution name `..`
against a store with no metadata entries returns `[".."]` — the fallback
checks `(site_packages / "..").is_dir()`, which is true on any real
filesystem — and `..` is precisely a parent-traversal segment: joined to
the store path it denotes the store's parent, outside the store root. -/
theorem C4_counterexample :
    resolve_package_dirs "..".data storeKO4 = ["..".data] ∧
    escapes "..".data = true := by
  exact ⟨by decide, by decide⟩

/-- Claim C4 (amended): every name resolved via the metadata-record path
is — unconditionally — a single path segment (contains no `/`) other than
`..`, so joined to the store path it stays inside the store root; a
fallback-resolved name stays inside provided the normalized distribution
name does not itself escape the store root. -/
theorem C4_amended_thm (s : Store) (name x : Str)
    (hx : x ∈ resolve_package_dirs name s) :
    (∀ ds, resolveFromEntries s name s.entries = some ds →
      '/' ∉ x ∧ x ≠ ['.', '.'] ∧ escapes x = false) ∧
    (escapes (normalize name) = false → escapes x = false) := by
  rw [resolve_package_dirs] at hx
  cases hres : resolveFromEntries s name s.entries with
  | some ds =>
    rw [hres] at hx
    obtain ⟨e, _, _, lines, _, rfl⟩ := resolveFromEntries_some s name s.entries ds hres
    obtain ⟨htop, hok⟩ := (mem_recordDirs s lines x).mp hx
    have hns : '/' ∉ x := not_slash_of_mem_recordTops x lines htop
    have hne : x ≠ ['.', '.'] := ne_parent_of_topOk s x hok
    exact ⟨fun _ _ => ⟨hns, hne, escapes_single x hns hne⟩,
      fun _ => escapes_single x hns hne⟩
  | none =>
    rw [hres] at hx
    by_cases hdir : s.isDir (normalize name)
    · rw [if_pos hdir] at hx
      rcases List.mem_singleton.mp hx with rfl
      refine ⟨fun ds hsome => ?_, fun hname => hname⟩
      exact Option.noConfusion hsome
    · rw [if_neg hdir] at hx
      exact absurd hx (List.not_mem_nil x)

/-- Witness for C4 (amended) at the metadata-path resolution of `pkg`
(store `storeW4`). -/
theorem C4_witness :
    (∀ ds, resolveFromEntries storeW4 "pkg".data storeW4.entries = some ds →
      '/' ∉ "pkg".data ∧ "pkg".data ≠ ['.', '.'] ∧ escapes "pkg".data = false) ∧
    (escapes (normalize "pkg".data) = false → escapes "pkg".data = false) :=
  C4_amended_thm storeW4 "pkg".data "pkg".data (by decide)

end IndexDeps
